import Mathlib

/-!
Verification of the Riemannian optimization core of `marco.py` (Lorentz-model
hyperbolic embeddings).  Batched tensors of shape `B × (d+1)` are modelled as
functions `Fin B → Fin (d + 1) → ℝ`; every definition below is translated
line-by-line from the corresponding Python function.  Where the source guards
against float NaN (an `x > 0` test is false for NaN), the model uses `Real.sqrt`,
which returns 0 on negative input, so the same branch is selected; the NaN/Inf
masking of `RSGD.step` (lines 68-69) is additionally modelled exactly over an
explicit float-value type `FpVal` that can represent NaN and the infinities.
-/

namespace Marco

noncomputable section

/-- Elementwise product of two rows: the tensor expression `m = x * y` on line 24
of `lorentz_scalar_product`. -/
def hadamard {n : ℕ} (x y : Fin n → ℝ) : Fin n → ℝ := fun i => x i * y i

/-- Lines 22-26, `lorentz_scalar_product(x, y)` for one row of the batch:
`m = x * y; m[1:].sum() - m[0]`. -/
def lorentz_scalar_product {d : ℕ} (x y : Fin (d + 1) → ℝ) : ℝ :=
  (∑ i : Fin d, hadamard x y i.succ) - hadamard x y 0

/-- Lines 29-31, `tangent_norm(x) = sqrt(lorentz_scalar_product(x, x))`. -/
def tangent_norm {d : ℕ} (v : Fin (d + 1) → ℝ) : ℝ :=
  Real.sqrt (lorentz_scalar_product v v)

/-- Lines 34-40, `exp_map(x, v)` for one row: `tn = tangent_norm(v)`;
`result = cosh(tn) * x + sinh(tn) * (v / tn)`; `where(tn > 0, result, x)`.
The `where` select is per entry with the same per-row condition `tn > 0`. -/
def exp_map {d : ℕ} (x v : Fin (d + 1) → ℝ) : Fin (d + 1) → ℝ := fun i =>
  if 0 < tangent_norm v then
    Real.cosh (tangent_norm v) * x i +
      Real.sinh (tangent_norm v) * (v i / tangent_norm v)
  else x i

/-- Lines 18-19, `arcosh(x) = log(x + sqrt(x ** 2 - 1))`. -/
def arcosh (x : ℝ) : ℝ := Real.log (x + Real.sqrt (x ^ 2 - 1))

/-- Line 120 of `Lorentz.forward`, the value of `dists = -lorentz_scalar_product(ui, uks)`
for the pair built from anchor `I b` and candidate `Ks b k`. -/
def forward_raw {n d B N : ℕ} (table : Fin n → Fin (d + 1) → ℝ)
    (I : Fin B → Fin n) (Ks : Fin B → Fin N → Fin n) (b : Fin B) (k : Fin N) : ℝ :=
  -lorentz_scalar_product (table (I b)) (table (Ks b k))

/-- Line 121, `dists = torch.where(dists < 1, torch.ones_like(dists), dists)`. -/
def forward_clamped {n d B N : ℕ} (table : Fin n → Fin (d + 1) → ℝ)
    (I : Fin B → Fin n) (Ks : Fin B → Fin N → Fin n) (b : Fin B) (k : Fin N) : ℝ :=
  if forward_raw table I Ks b k < 1 then 1 else forward_raw table I Ks b k

/-- Line 125, `dists = -arcosh(dists)`. -/
def forward_ndists {n d B N : ℕ} (table : Fin n → Fin (d + 1) → ℝ)
    (I : Fin B → Fin n) (Ks : Fin B → Fin N → Fin n) (b : Fin B) (k : Fin N) : ℝ :=
  -arcosh (forward_clamped table I Ks b k)

/-- Line 128, `loss = -(dists[:, 0] - torch.log(torch.exp(dists).sum(dim=1) + 1e-6))`,
one entry of the returned loss vector.  Column 0 of `Ks` is the positive. -/
def forward_loss {n d B N : ℕ} (table : Fin n → Fin (d + 1) → ℝ)
    (I : Fin B → Fin n) (Ks : Fin B → Fin (N + 1) → Fin n) (b : Fin B) : ℝ :=
  -(forward_ndists table I Ks b 0 -
    Real.log ((∑ k : Fin (N + 1), Real.exp (forward_ndists table I Ks b k)) + 1e-6))

/-- Lines 55-56 of `RSGD.step`: `gl = torch.eye(D); gl[0, 0] = -1`. -/
def gl (d : ℕ) : Fin (d + 1) → Fin (d + 1) → ℝ := fun i j =>
  if i = 0 ∧ j = 0 then -1 else if i = j then 1 else 0

/-- Line 57, `grad_norm = torch.norm(p.grad.data)`: the Frobenius norm of the
whole gradient tensor. -/
def frob_norm {B D : ℕ} (G : Fin B → Fin D → ℝ) : ℝ :=
  Real.sqrt (∑ b : Fin B, ∑ i : Fin D, G b i ^ 2)

/-- Line 58, `h = (p.grad.data / grad_norm) @ gl` (matrix product with the
Minkowski signature matrix). -/
def rsgd_h {B d : ℕ} (G : Fin B → Fin (d + 1) → ℝ) : Fin B → Fin (d + 1) → ℝ :=
  fun b j => ∑ k : Fin (d + 1), G b k / frob_norm G * gl d k j

/-- Lines 59-65, `proj = h - (lorentz_scalar_product(p, h) / lorentz_scalar_product(p, p)).unsqueeze(1) * p`. -/
def rsgd_proj {B d : ℕ} (p G : Fin B → Fin (d + 1) → ℝ) : Fin B → Fin (d + 1) → ℝ :=
  fun b i =>
    rsgd_h G b i -
      lorentz_scalar_product (p b) (rsgd_h G b) / lorentz_scalar_product (p b) (p b)
        * p b i

/-- Lines 70-71 of `RSGD.step` (and identically lines 88-89 of `Lorentz.__init__`):
`dim0 = torch.sqrt(1 + torch.norm(update[:, 1:], dim=1)); update[:, 0] = dim0`.
Note the source applies `sqrt` to `1 +` the row 2-norm, not the squared norm. -/
def reimpose_dim0 {B d : ℕ} (U : Fin B → Fin (d + 1) → ℝ) : Fin B → Fin (d + 1) → ℝ :=
  fun b i =>
    if i = 0 then Real.sqrt (1 + Real.sqrt (∑ j : Fin d, U b j.succ ^ 2)) else U b i

/-- Lines 49-72, one `RSGD.step` update of a parameter tensor `p` with gradient `G`
(real-number model: the NaN/Inf mask of lines 68-69 keeps every entry, since no
real number is NaN or Inf; the mask itself is modelled exactly over `FpVal` below).
`update = exp_map(p, -learning_rate * proj)` followed by the coordinate-0 overwrite. -/
def rsgd_step {B d : ℕ} (lr : ℝ) (p G : Fin B → Fin (d + 1) → ℝ) :
    Fin B → Fin (d + 1) → ℝ :=
  reimpose_dim0 (fun b => exp_map (p b) (fun i => -lr * rsgd_proj p G b i))

/-- Lines 80-89, `Lorentz.__init__`: the uniformly sampled weight matrix `w` has its
coordinate 0 overwritten by `sqrt(1 + torch.norm(w[:, 1:], dim=1))` (random sampling
is modelled by taking the sampled matrix as an explicit argument). -/
def lorentz_init {n d : ℕ} (w : Fin n → Fin (d + 1) → ℝ) : Fin n → Fin (d + 1) → ℝ :=
  reimpose_dim0 w

/-- Lines 132-135, `lorentz_to_poincare(table) = table[:, 1:] / (table[:, :1] + 1)`,
for one row. -/
def lorentz_to_poincare {d : ℕ} (x : Fin (d + 1) → ℝ) : Fin d → ℝ :=
  fun i => x i.succ / (x 0 + 1)

/-- Inverse hyperboloid reconstruction, written from the spec formula:
`x_0 = (1+|y|^2)/(1-|y|^2)` and `x_{1:} = 2y/(1-|y|^2)`. -/
def poincare_to_lorentz {d : ℕ} (y : Fin d → ℝ) : Fin (d + 1) → ℝ :=
  fun i =>
    Fin.cases ((1 + ∑ j : Fin d, y j ^ 2) / (1 - ∑ j : Fin d, y j ^ 2))
      (fun j => 2 * y j / (1 - ∑ j : Fin d, y j ^ 2)) i

end

/-- Value of one tensor entry in IEEE terms: finite (payload kept abstract as an
integer), positive or negative infinity, or NaN.  Used to model the NaN/Inf
masking of `RSGD.step` lines 68-69 exactly. -/
inductive FpVal where
  | fin : Int → FpVal
  | posinf : FpVal
  | neginf : FpVal
  | nan : FpVal
deriving DecidableEq

/-- Line 68, `is_nan_inf = torch.isnan(update) | torch.isinf(update)` for one entry. -/
def FpVal.isNanInf : FpVal → Bool
  | .fin _ => false
  | .posinf => true
  | .neginf => true
  | .nan => true

/-- Lines 68-69 of `RSGD.step`: `update = torch.where(is_nan_inf, p, update)`,
an elementwise select between the pre-step tensor `p` and the candidate update `U`. -/
def nan_inf_mask {B D : ℕ} (p U : Fin B → Fin D → FpVal) : Fin B → Fin D → FpVal :=
  fun b i => if (U b i).isNanInf then p b i else U b i

noncomputable section

/-- Shared helper: the Lorentzian self-product written with squares. -/
theorem lsp_self_eq {d : ℕ} (x : Fin (d + 1) → ℝ) :
    lorentz_scalar_product x x = (∑ i : Fin d, x i.succ ^ 2) - x 0 ^ 2 := by
  unfold lorentz_scalar_product hadamard
  simp [pow_two]

/-- Shared helper: when the Lorentzian self-product of the displacement is not
positive, the tangent norm is 0 (float model: NaN), the guard `tn > 0` on line 39
fails, and `exp_map` returns the base point. -/
theorem exp_map_eq_of_nonpos {d : ℕ} (x v : Fin (d + 1) → ℝ)
    (h : lorentz_scalar_product v v ≤ 0) : exp_map x v = x := by
  have htn : tangent_norm v = 0 := Real.sqrt_eq_zero'.mpr h
  funext i
  unfold exp_map
  rw [htn]
  simp

/-- C9: the Lorentzian scalar product is symmetric, and per batch row equals
`sum(x[1:] * y[1:]) - x[0] * y[0]`. -/
theorem lorentz_scalar_product_symm_formula {d B : ℕ}
    (x y : Fin B → Fin (d + 1) → ℝ) (b : Fin B) :
    lorentz_scalar_product (x b) (y b) = lorentz_scalar_product (y b) (x b) ∧
      lorentz_scalar_product (x b) (y b) =
        (∑ i : Fin d, x b i.succ * y b i.succ) - x b 0 * y b 0 := by
  constructor
  · unfold lorentz_scalar_product hadamard
    congr 1
    · exact Finset.sum_congr rfl fun i _ => mul_comm _ _
    · exact mul_comm _ _
  · rfl

/-- C7: at zero displacement the exponential map is the identity:
`exp_map(x, 0) = x` (the guard `tn > 0` fails at `tn = 0` and the `where`
select returns `x`). -/
theorem exp_map_zero {d : ℕ} (x : Fin (d + 1) → ℝ) :
    exp_map x (fun _ => 0) = x := by
  have h : lorentz_scalar_product (fun _ : Fin (d + 1) => (0 : ℝ))
      (fun _ : Fin (d + 1) => (0 : ℝ)) ≤ 0 := by
    unfold lorentz_scalar_product hadamard
    simp
  exact exp_map_eq_of_nonpos x _ h

/-- C10: whenever the displacement has nonpositive Lorentzian self-product
(so its tangent norm is 0 here, NaN in floats for the negative case), the
guard `tn > 0` selects the fallback branch and `exp_map(x, v) = x`. -/
theorem exp_map_nonpos_self_product {d : ℕ} (x v : Fin (d + 1) → ℝ)
    (h : lorentz_scalar_product v v ≤ 0) : exp_map x v = x :=
  exp_map_eq_of_nonpos x v h

/-- Witness for C10 at the concrete base point `(3, 5)` and displacement `(1, 0)`,
whose self-product is `-1 < 0`. -/
theorem exp_map_nonpos_self_product_witness :
    exp_map ![(3 : ℝ), 5] ![(1 : ℝ), 0] = ![(3 : ℝ), 5] :=
  exp_map_nonpos_self_product _ _ (by
    unfold lorentz_scalar_product hadamard
    simp [Fin.sum_univ_one])

/-- C4: the value fed to `arcosh` in `forward` is never below 1 (values strictly
less than 1 have been replaced by 1 on line 121), so the hyperbolic distance
`arcosh` of it is non-negative, for arbitrary table entries. -/
theorem forward_clamped_ge_one_dist_nonneg {n d B N : ℕ}
    (table : Fin n → Fin (d + 1) → ℝ) (I : Fin B → Fin n)
    (Ks : Fin B → Fin N → Fin n) (b : Fin B) (k : Fin N) :
    1 ≤ forward_clamped table I Ks b k ∧
      0 ≤ arcosh (forward_clamped table I Ks b k) := by
  have h1 : 1 ≤ forward_clamped table I Ks b k := by
    unfold forward_clamped
    split
    · exact le_refl 1
    · exact le_of_not_lt (by assumption)
  refine ⟨h1, ?_⟩
  unfold arcosh
  apply Real.log_nonneg
  have h2 : 0 ≤ Real.sqrt (forward_clamped table I Ks b k ^ 2 - 1) :=
    Real.sqrt_nonneg _
  linarith

/-- Spec-side hyperbolic distance of a pair: `arcosh` of the clamped negated
scalar product. -/
def hyper_dist {n d B N : ℕ} (table : Fin n → Fin (d + 1) → ℝ)
    (I : Fin B → Fin n) (Ks : Fin B → Fin N → Fin n) (b : Fin B) (k : Fin N) : ℝ :=
  arcosh (forward_clamped table I Ks b k)

/-- Spec-side loss formula (written from the spec's words): the negative
log-softmax of the negated distances over the candidate axis at column 0,
`loss_b = -( -dist_{b,0} - log(sum_k exp(-dist_{b,k}) + eps) )` with `eps = 1e-6`. -/
def loss_formula_spec {n d B N : ℕ} (table : Fin n → Fin (d + 1) → ℝ)
    (I : Fin B → Fin n) (Ks : Fin B → Fin (N + 1) → Fin n) (b : Fin B) : ℝ :=
  -(-hyper_dist table I Ks b 0 -
    Real.log ((∑ k : Fin (N + 1), Real.exp (-hyper_dist table I Ks b k)) + 1e-6))

/-- C6: the loss computed by `forward` is exactly the spec formula
`loss_b = -( -dist_{b,0} - log(sum_k exp(-dist_{b,k}) + 1e-6) )`. -/
theorem forward_loss_eq_log_softmax {n d B N : ℕ}
    (table : Fin n → Fin (d + 1) → ℝ) (I : Fin B → Fin n)
    (Ks : Fin B → Fin (N + 1) → Fin n) (b : Fin B) :
    forward_loss table I Ks b = loss_formula_spec table I Ks b := rfl

/-- Spec-side step-2 gradient conversion: divide the gradient by its overall
(whole-tensor) norm, then flip the sign of coordinate 0 (multiplication by the
Minkowski signature matrix). -/
def rsgd_h_spec {B d : ℕ} (G : Fin B → Fin (d + 1) → ℝ) : Fin B → Fin (d + 1) → ℝ :=
  fun b j => G b j / frob_norm G * (if j = 0 then -1 else 1)

/-- Spec-side step-3 tangent projection: `proj = h - (⟨p,h⟩_L / ⟨p,p⟩_L) * p`. -/
def rsgd_proj_spec {B d : ℕ} (p G : Fin B → Fin (d + 1) → ℝ) :
    Fin B → Fin (d + 1) → ℝ :=
  fun b i =>
    rsgd_h_spec G b i -
      lorentz_scalar_product (p b) (rsgd_h_spec G b)
          / lorentz_scalar_product (p b) (p b)
        * p b i

/-- Shared helper: the matrix product with the signature matrix collapses to a
sign flip of coordinate 0 after the whole-tensor normalization. -/
theorem rsgd_h_collapse {B d : ℕ} (G : Fin B → Fin (d + 1) → ℝ) :
    rsgd_h G = rsgd_h_spec G := by
  funext b j
  unfold rsgd_h rsgd_h_spec gl
  rw [Finset.sum_eq_single j]
  · by_cases hj : j = 0 <;> simp [hj]
  · intro k _ hk
    have h1 : ¬(k = 0 ∧ j = 0) := by
      rintro ⟨rfl, rfl⟩
      exact hk rfl
    simp [h1, hk]
  · intro hmem
    exact absurd (Finset.mem_univ j) hmem

/-- C5: the tangent update of `RSGD.step` is as the spec describes: the gradient
is divided by its whole-tensor norm, multiplied by the signature matrix (which
amounts to flipping the sign of coordinate 0), and projected by
`proj = h - (⟨p,h⟩_L / ⟨p,p⟩_L) * p`. -/
theorem rsgd_tangent_update_spec {B d : ℕ} (p G : Fin B → Fin (d + 1) → ℝ) :
    rsgd_h G = rsgd_h_spec G ∧ rsgd_proj p G = rsgd_proj_spec p G := by
  refine ⟨rsgd_h_collapse G, ?_⟩
  funext b i
  unfold rsgd_proj rsgd_proj_spec
  rw [rsgd_h_collapse]

end

/-- Concrete pre-step tensor for the NaN/Inf masking claim: one row `(0, 1)`. -/
def maskP : Fin 1 → Fin 2 → FpVal := fun _ => ![FpVal.fin 0, FpVal.fin 1]

/-- Concrete candidate update: one row `(NaN, 5)`, whose entry 0 is NaN and whose
entry 1 is finite and differs from the pre-step value. -/
def maskU : Fin 1 → Fin 2 → FpVal := fun _ => ![FpVal.nan, FpVal.fin 5]

/-- Counterexample to C3 as stated: row 0 of the candidate update contains a NaN
entry, yet the masked update does NOT replace the entire row with the pre-step
row — the finite entry 1 keeps its updated value `5`, not the pre-step `1`
(the `where` on line 69 selects elementwise, not per row). -/
theorem rsgd_nan_mask_not_rowwise :
    (∃ i : Fin 2, (maskU 0 i).isNanInf = true) ∧
      ¬(∀ i : Fin 2, nan_inf_mask maskP maskU 0 i = maskP 0 i) := by decide

/-- C3 amended: the NaN/Inf fallback of `RSGD.step` is elementwise, not per row —
every NaN or Inf entry of the candidate update is replaced by the pre-step value
of that same entry, every finite entry keeps its updated value, and (the safety
consequence) if the pre-step tensor is free of NaN/Inf then so is the masked
update; the masking is a total function and never raises. -/
theorem rsgd_nan_mask_entrywise {B D : ℕ} (p U : Fin B → Fin D → FpVal)
    (b : Fin B) (i : Fin D) :
    ((U b i).isNanInf = true → nan_inf_mask p U b i = p b i) ∧
      ((U b i).isNanInf = false → nan_inf_mask p U b i = U b i) ∧
        ((p b i).isNanInf = false → (nan_inf_mask p U b i).isNanInf = false) := by
  unfold nan_inf_mask
  refine ⟨fun h => by simp [h], fun h => by simp [h], fun hp => ?_⟩
  by_cases h : (U b i).isNanInf <;> simp [h, hp]

/-- Witness for the amended C3 at the concrete tensors above: the NaN entry 0
is replaced by the pre-step entry. -/
theorem rsgd_nan_mask_entrywise_witness :
    nan_inf_mask maskP maskU 0 0 = maskP 0 0 :=
  (rsgd_nan_mask_entrywise maskP maskU 0 0).1 (by decide)

noncomputable section

/-- C8: for a point on the valid region of the hyperboloid (`⟨x,x⟩_L = -1`,
`x_0 > 0`), `lorentz_to_poincare` followed by the spec's inverse hyperboloid
reconstruction recovers the point exactly. -/
theorem poincare_round_trip {d : ℕ} (x : Fin (d + 1) → ℝ)
    (hx : lorentz_scalar_product x x = -1) (hx0 : 0 < x 0) :
    poincare_to_lorentz (lorentz_to_poincare x) = x := by
  have hS : (∑ i : Fin d, x i.succ ^ 2) = x 0 ^ 2 - 1 := by
    have h := lsp_self_eq x
    rw [hx] at h
    linarith
  have hc : x 0 + 1 ≠ 0 := by positivity
  have hT : (∑ j : Fin d, lorentz_to_poincare x j ^ 2) = (x 0 - 1) / (x 0 + 1) := by
    unfold lorentz_to_poincare
    have h1 : (∑ j : Fin d, (x j.succ / (x 0 + 1)) ^ 2)
        = (∑ j : Fin d, x j.succ ^ 2) / (x 0 + 1) ^ 2 := by
      rw [Finset.sum_div]
      exact Finset.sum_congr rfl fun j _ => div_pow _ _ _
    rw [h1, hS, div_eq_div_iff (pow_ne_zero 2 hc) hc]
    ring
  have h2 : 1 - (∑ j : Fin d, lorentz_to_poincare x j ^ 2) = 2 / (x 0 + 1) := by
    rw [hT]
    field_simp
    ring
  have h1p : 1 + (∑ j : Fin d, lorentz_to_poincare x j ^ 2) = 2 * x 0 / (x 0 + 1) := by
    rw [hT]
    field_simp
    ring
  have h3 : (2 / (x 0 + 1) : ℝ) ≠ 0 := div_ne_zero two_ne_zero hc
  funext i
  induction i using Fin.cases with
  | zero =>
      show (1 + ∑ j : Fin d, lorentz_to_poincare x j ^ 2)
          / (1 - ∑ j : Fin d, lorentz_to_poincare x j ^ 2) = x 0
      rw [h1p, h2, div_eq_iff h3]
      ring
  | succ j =>
      show 2 * lorentz_to_poincare x j
          / (1 - ∑ j : Fin d, lorentz_to_poincare x j ^ 2) = x j.succ
      rw [h2, div_eq_iff h3]
      unfold lorentz_to_poincare
      field_simp
      ring

/-- Witness for C8 at the concrete hyperboloid point `(sqrt 2, 1)`. -/
theorem poincare_round_trip_witness :
    poincare_to_lorentz (lorentz_to_poincare ![Real.sqrt 2, 1]) = ![Real.sqrt 2, 1] :=
  poincare_round_trip _
    (by
      unfold lorentz_scalar_product hadamard
      simp [Fin.sum_univ_one]
      norm_num)
    (by simp [Real.sqrt_pos])

/-- Concrete one-row tensor `(0, 2)`: reachable as a sampled weight matrix with
`init_range = 2` (entry 0 is overwritten anyway) and likewise a legal parameter
tensor for a step. -/
def row02 : Fin 1 → Fin 2 → ℝ := fun _ => ![0, 2]

/-- Concrete gradient tensor `(1, 0)` for the single row. -/
def stepG : Fin 1 → Fin 2 → ℝ := fun _ => ![1, 0]

/-- Shared helper: the coordinate-0 overwrite applied to the row `(0, 2)` yields
`(sqrt 3, 2)`, because the source takes `sqrt(1 + norm)` with the norm NOT
squared: `sqrt(1 + sqrt(2 ^ 2)) = sqrt 3`. -/
theorem reimpose_row02_eval : reimpose_dim0 row02 0 = ![Real.sqrt 3, 2] := by
  funext i
  unfold reimpose_dim0 row02
  fin_cases i
  · simp [Fin.sum_univ_one]
    norm_num
  · simp

/-- Shared helper: the Lorentzian self-product of the overwritten row `(sqrt 3, 2)`
is `2 * 2 - sqrt 3 * sqrt 3 = 1`, not `-1`. -/
theorem reimpose_row02_lsp :
    lorentz_scalar_product (reimpose_dim0 row02 0) (reimpose_dim0 row02 0) = 1 := by
  rw [reimpose_row02_eval]
  unfold lorentz_scalar_product hadamard
  simp [Fin.sum_univ_one]
  norm_num

/-- C2 (code bug): constructing the table from the sampled weights `(0, 2)`
(numEntities 1, ambient dimension 2, initRange 2) gives a row with
`⟨x,x⟩_L = 1`, far outside any floating tolerance of `-1`: line 88 computes
`sqrt(1 + torch.norm(w[:, 1:], dim=1))`, omitting the square of the norm that
the hyperboloid constraint (and the comment `equation 6`) requires. -/
theorem lorentz_init_breaks_hyperboloid :
    lorentz_scalar_product (lorentz_init row02 0) (lorentz_init row02 0) = 1 ∧
      ¬|lorentz_scalar_product (lorentz_init row02 0) (lorentz_init row02 0) + 1|
          ≤ 1e-5 := by
  have h : lorentz_scalar_product (lorentz_init row02 0) (lorentz_init row02 0) = 1 :=
    reimpose_row02_lsp
  refine ⟨h, ?_⟩
  rw [h]
  norm_num

/-- C1 (code bug): one `RSGD.step` with learning rate `1/100` on the table
`(0, 2)` with gradient `(1, 0)` leaves the row at `(sqrt 3, 2)` with
`⟨x,x⟩_L = 1 ≠ -1`: line 70 computes `sqrt(1 + torch.norm(update[:, 1:], dim=1))`
without squaring the norm, so the manifold invariant is not re-imposed. -/
theorem rsgd_step_breaks_hyperboloid :
    lorentz_scalar_product (rsgd_step (1 / 100) row02 stepG 0)
        (rsgd_step (1 / 100) row02 stepG 0) = 1 ∧
      ¬|lorentz_scalar_product (rsgd_step (1 / 100) row02 stepG 0)
            (rsgd_step (1 / 100) row02 stepG 0) + 1|
          ≤ 1e-5 := by
  have hfrob : frob_norm stepG = 1 := by
    unfold frob_norm stepG
    rw [Fin.sum_univ_one, Fin.sum_univ_two]
    norm_num
  have hh : rsgd_h stepG = fun _ => ![(-1 : ℝ), 0] := by
    rw [rsgd_h_collapse]
    funext b j
    unfold rsgd_h_spec
    rw [hfrob]
    fin_cases j <;> norm_num [stepG]
  have hph : ∀ b : Fin 1, lorentz_scalar_product (row02 b) ![(-1 : ℝ), 0] = 0 := by
    intro b
    unfold lorentz_scalar_product hadamard row02
    simp [Fin.sum_univ_one]
  have hproj : rsgd_proj row02 stepG = fun _ => ![(-1 : ℝ), 0] := by
    funext b i
    unfold rsgd_proj
    simp only [hh]
    rw [hph b]
    simp
  have hvv : ∀ b : Fin 1,
      lorentz_scalar_product (fun i => -(1 / 100 : ℝ) * rsgd_proj row02 stepG b i)
        (fun i => -(1 / 100 : ℝ) * rsgd_proj row02 stepG b i) ≤ 0 := by
    intro b
    simp only [hproj]
    unfold lorentz_scalar_product hadamard
    simp [Fin.sum_univ_one]
  have hexp : (fun b => exp_map (row02 b)
      fun i => -(1 / 100 : ℝ) * rsgd_proj row02 stepG b i) = row02 := by
    funext b
    exact exp_map_eq_of_nonpos _ _ (hvv b)
  have hstep : rsgd_step (1 / 100) row02 stepG = reimpose_dim0 row02 := by
    unfold rsgd_step
    rw [hexp]
  have h1 : lorentz_scalar_product (rsgd_step (1 / 100) row02 stepG 0)
      (rsgd_step (1 / 100) row02 stepG 0) = 1 := by
    rw [hstep]
    exact reimpose_row02_lsp
  refine ⟨h1, ?_⟩
  rw [h1]
  norm_num

end

end Marco
